import Mathlib

/-!
Shallow embedding of `umi-mut-sim.cpp` (UMI-aware somatic variant spike-in
simulator).  Machine integers are modelled as `Nat` with explicit reduction
modulo `2 ^ 32` where the C code relies on 32-bit wraparound; genomic
coordinates (`tid`, `pos`) are `Int` as in htslib; `double` fractions are
modelled as `ℚ` (every comparison the program performs is an order
comparison, and the concrete inputs used in the theorems below are dyadic,
hence exactly representable).  Fallible paths (`abort()`) are modelled with
`Option`.
-/

/-- Width of the 32-bit unsigned integers used by the khash mixing functions. -/
def U32 : Nat := 2 ^ 32

/-- Model of khash's `__ac_X31_hash_string`: `h = 31*h + c` over every byte of
the string, on 32-bit unsigned arithmetic (the C version seeds with the first
character, which coincides with folding from 0). -/
def ac_X31_hash_string (s : List Char) : Nat :=
  s.foldl (fun h c => (h * 31 + c.toNat) % U32) 0

/-- Model of khash's `__ac_Wang_hash` integer avalanche mixer on 32-bit
unsigned arithmetic; `~x` is `2^32 - 1 - x` for `x < 2^32`. -/
def ac_Wang_hash (key : Nat) : Nat :=
  let k0 := key % U32
  let k1 := (k0 + (U32 - 1 - (k0 * 2 ^ 15) % U32)) % U32
  let k2 := k1 ^^^ (k1 / 2 ^ 10)
  let k3 := (k2 + (k2 * 2 ^ 3) % U32) % U32
  let k4 := k3 ^^^ (k3 / 2 ^ 6)
  let k5 := (k4 + (U32 - 1 - (k4 * 2 ^ 11) % U32)) % U32
  k5 ^^^ (k5 / 2 ^ 16)

/-- Model of C `strchr(str, c)`: the suffix of the string starting at the
first occurrence of `c`, or `none` when `c` does not occur. -/
def strchrSuffix (c : Char) : List Char → Option (List Char)
  | [] => none
  | a :: t => if a = c then some (a :: t) else strchrSuffix c t

/-- The key actually hashed by `umistr2prob`: the result of
`strchr(str, '#')` when non-NULL (the suffix starting at the first `#`),
else the whole identifier. -/
def umikey (s : List Char) : List Char :=
  (strchrSuffix '#' s).getD s

/-- Model of `umistr2prob` (source lines 33-39): returns the fraction
`(k & 0xffffff) / 0x1000000` together with the 32-bit seed
`__ac_Wang_hash(__ac_X31_hash_string(umistr) ^ 0)`. -/
def umistr2prob (s : List Char) : ℚ × Nat :=
  let k := ac_Wang_hash (ac_X31_hash_string (umikey s) ^^^ 0)
  (((k &&& 0xffffff : Nat) : ℚ) / (0x1000000 : ℚ), k)

/-- Model of the 256-entry complement table `_RevComplement` (source lines
41-58): the eight nucleotide letters are swapped case-preservingly and every
other (ASCII) character maps to itself. -/
def complementChar (c : Char) : Char :=
  if c = 'A' then 'T' else if c = 'T' then 'A'
  else if c = 'C' then 'G' else if c = 'G' then 'C'
  else if c = 'a' then 't' else if c = 't' then 'a'
  else if c = 'c' then 'g' else if c = 'g' then 'c'
  else c

/-- Model of `complement` (source lines 60-66): pointwise table lookup. -/
def complement (s : List Char) : List Char :=
  s.map complementChar

/-- The transform applied to a reverse-strand sequence at emission time:
`reverse(seq); complement(seq);` (source lines 93 and 112). -/
def revcomp (s : List Char) : List Char :=
  complement s.reverse

/-- Model of `is_var1_before_var2` (source lines 77-79): the lexicographic
strict order on (contig id, position). -/
def is_var1_before_var2 (tid1 pos1 tid2 pos2 : Int) : Bool :=
  decide (tid1 < tid2) || (decide (tid1 = tid2) && decide (pos1 < pos2))

/-- A variant record as used by the program: coordinates, the two alleles
`d.allele[0]` / `d.allele[1]`, and the optional per-record FORMAT/FA value
(the `bcf_get_format_int32(..., "FA", ...)` lookup is an external htslib
accessor; it is modelled as returning the record's FA value when one is
present, else signalling absence so that the process-wide default is used). -/
structure BcfRec where
  rid : Int
  pos : Int
  ref : List Char
  alt : List Char
  fa : Option ℚ
deriving DecidableEq

/-- A read record with the fields the core logic consumes.  `seq` holds the
decoded `seq_nt16_str` characters and `qual` the raw (unshifted) qualities. -/
structure BamRec where
  tid : Int
  pos : Int
  qname : List Char
  flag : Nat
  cigar : List (Nat × Nat)
  seq : List Char
  qual : List Nat
deriving DecidableEq

def BAM_CMATCH : Nat := 0

def BAM_CINS : Nat := 1

def BAM_CDEL : Nat := 2

def BAM_CREF_SKIP : Nat := 3

def BAM_CSOFT_CLIP : Nat := 4

def BAM_CHARD_CLIP : Nat := 5

def BAM_CEQUAL : Nat := 7

def BAM_CDIFF : Nat := 8

/-- Number of reference bases consumed by a cigar, as in htslib's
`bam_cigar2rlen` (ops M, D, N, =, X consume reference). -/
def cigar2rlen (ops : List (Nat × Nat)) : Nat :=
  (ops.map (fun p =>
    if p.1 = BAM_CMATCH ∨ p.1 = BAM_CDEL ∨ p.1 = BAM_CREF_SKIP ∨
       p.1 = BAM_CEQUAL ∨ p.1 = BAM_CDIFF then p.2 else 0)).sum

/-- Model of htslib's `bam_endpos` for a mapped read: `pos + rlen` when the
cigar is non-empty, else `pos + 1`. -/
def bam_endpos (r : BamRec) : Int :=
  if r.cigar.length > 0 then r.pos + (cigar2rlen r.cigar : Int) else r.pos + 1

/-- Skip-ahead loop (source lines 187-197): while the prep variant is
strictly before the read's start, read the next variant over it (discarding
the old one); stop on exhaustion (`ret = -1`).  Returns the new prep buffer,
the new `vcf_read_ret`, and the remaining stream. -/
def skipAhead (tid pos : Int) (prep : BcfRec) (ret : Int)
    (rest : List BcfRec) : BcfRec × Int × List BcfRec :=
  if is_var1_before_var2 prep.rid prep.pos tid pos then
    if ret = -1 then (prep, ret, rest)
    else
      match rest with
      | [] => (prep, -1, [])
      | v :: t => skipAhead tid pos v 0 t
  else (prep, ret, rest)
termination_by structural rest

/-- Fetch-ahead loop (source lines 198-208): while the prep variant is
strictly before the read's end position, read the NEXT variant into the prep
buffer and push a duplicate of that newly read variant onto the back of the
window.  Note the order: the read happens before the duplication, so the
variant that satisfied the loop condition is itself never pushed.  Returns
prep, ret, remaining stream, and the grown window. -/
def fetchAhead (tid endp : Int) (prep : BcfRec) (ret : Int)
    (rest window : List BcfRec) : BcfRec × Int × List BcfRec × List BcfRec :=
  if is_var1_before_var2 prep.rid prep.pos tid endp then
    if ret = -1 then (prep, ret, rest, window)
    else
      match rest with
      | [] => (prep, -1, [], window)
      | v :: t => fetchAhead tid endp v 0 t (window ++ [v])
  else (prep, ret, rest, window)
termination_by structural rest

/-- Eviction loop (source lines 209-214): pop variants off the front of the
window while the front is strictly before the read's start. -/
def evict (tid pos : Int) : List BcfRec → List BcfRec
  | [] => []
  | v :: t => if is_var1_before_var2 v.rid v.pos tid pos then evict tid pos t else v :: t

/-- The exact sequence of variants the fetch-ahead loop appends to the
window: starting from the current prep variant, each successor in the stream
is taken while the previously examined variant was still strictly before the
read's end position. -/
def fetchTaken (tid endp : Int) (prep : BcfRec) (rest : List BcfRec) :
    List BcfRec :=
  if is_var1_before_var2 prep.rid prep.pos tid endp then
    match rest with
    | [] => []
    | v :: t => v :: fetchTaken tid endp v t
  else []
termination_by structural rest

/-- The window is kept in non-decreasing (rid, pos) order (holds when the
variant source is coordinate-sorted). -/
def WinSorted (w : List BcfRec) : Prop :=
  w.Pairwise (fun a b => is_var1_before_var2 b.rid b.pos a.rid a.pos = false)

instance : DecidablePred WinSorted := fun w =>
  inferInstanceAs (Decidable (w.Pairwise _))

/-- Per-read state of the mutation engine (source lines 216-333): the
rewritten sequence and quality buffers, the query and reference cursors, the
window iterator (modelled as the not-yet-passed suffix of the window), and
the running counters.  Counters are process-wide in the source; here each
engine run starts them at zero and theorems speak about the increments. -/
structure EngineState where
  newseq : List Char
  newqual : List Nat
  qpos : Nat
  rpos : Int
  wrem : List BcfRec
  nKeptReads : Nat
  nSnv : Nat
  nMnv : Nat
  nIns : Nat
  nDel : Nat
  nSkipReads : Nat
  nSkipCmatches : Nat
deriving DecidableEq

/-- Outcome of evaluating the run of equal-position variants at one match
position (the `for (vcf_rec_it2 ...)` loop, source lines 250-299). -/
inductive RunOutcome where
  | notMutated : RunOutcome
  | snv : Char → RunOutcome
  | mnv : Char → RunOutcome
  | ins : List Char → RunOutcome
  | delAdv : Nat → RunOutcome
  | delCopy : RunOutcome
  | unsupported : RunOutcome
deriving DecidableEq

/-- The ref/alt shape dispatch applied to the variant that wins the fraction
test (source lines 259-294).  `j` and `oplen` are the intra-operation index
and the length of the current match operation, consulted by the deletion
branch (`strlen(newref) + j < cigar_oplen1`). -/
def shapeOutcome (j oplen : Nat) (v : BcfRec) : RunOutcome :=
  if v.ref.length = 1 ∧ v.alt.length = 1 then .snv (v.alt.headD 'N')
  else if v.ref.length = v.alt.length then .mnv (v.alt.headD 'N')
  else if v.ref.length = 1 ∧ 1 < v.alt.length then .ins v.alt
  else if 1 < v.ref.length ∧ v.alt.length = 1 then
    if v.ref.length + j < oplen then .delAdv v.ref.length else .delCopy
  else .unsupported

/-- Evaluation of a run of equal-position variants (source lines 248-299):
`allelefrac` ACCUMULATES each variant's FA (or the process default when the
record has none); the first variant whose cumulative sum reaches the read's
shared fraction is applied and the loop breaks. -/
def evalRun (mutprob defFA : ℚ) (j oplen : Nat) :
    List BcfRec → ℚ → RunOutcome
  | [], _ => .notMutated
  | v :: rest, acc =>
    let acc2 := acc + v.fa.getD defFA
    if mutprob ≤ acc2 then shapeOutcome j oplen v
    else evalRun mutprob defFA j oplen rest acc2

/-- Append the untouched base and quality at the current query cursor
(`newseq.push_back(seq_nt16_str[bam_seqi(seq, qpos)]); newqual.push_back(qual[qpos])`). -/
def pushBase (seq : List Char) (qual : List Nat) (st : EngineState) : EngineState :=
  { st with newseq := st.newseq ++ [seq.getD st.qpos 'N'],
            newqual := st.newqual ++ [qual.getD st.qpos 0] }

/-- The `qpos++; rpos++;` at the end of each match-position iteration
(source lines 312-313). -/
def advance1 (st : EngineState) : EngineState :=
  { st with qpos := st.qpos + 1, rpos := st.rpos + 1 }

/-- One iteration of the per-base loop inside a match/equal/diff operation
(source lines 234-314): advance the window iterator past variants strictly
before `rpos`, detect a run anchored exactly at `rpos` (position compared,
contig not), evaluate it, and rewrite the buffers and cursors accordingly.
Returns the new state together with the next value of the intra-operation
index `j`. -/
def matchStep (tid : Int) (mutprob defFA : ℚ) (seq : List Char)
    (qual : List Nat) (j oplen : Nat) (st0 : EngineState) :
    EngineState × Nat :=
  let w := st0.wrem.dropWhile
    (fun v => is_var1_before_var2 v.rid v.pos tid st0.rpos)
  let st : EngineState := { st0 with wrem := w }
  match w with
  | v :: _ =>
    if st.rpos = v.pos then
      let run := w.takeWhile (fun u => u.rid == v.rid && u.pos == v.pos)
      match evalRun mutprob defFA j oplen run 0 with
      | .notMutated =>
          (advance1 { pushBase seq qual st with
                        nSkipReads := st.nSkipReads + 1 }, j + 1)
      | .snv a =>
          (advance1 { st with
              newseq := st.newseq ++ [a],
              newqual := st.newqual ++ [qual.getD st.qpos 0],
              nSnv := st.nSnv + 1,
              nKeptReads := st.nKeptReads + 1 }, j + 1)
      | .mnv a =>
          (advance1 { st with
              newseq := st.newseq ++ [a],
              newqual := st.newqual ++ [qual.getD st.qpos 0],
              nMnv := st.nMnv + 1,
              nKeptReads := st.nKeptReads + 1 }, j + 1)
      | .ins alt =>
          (advance1 { st with
              newseq := st.newseq ++ alt,
              newqual := st.newqual ++ [qual.getD st.qpos 0]
                           ++ List.replicate (alt.length - 1) 30,
              nIns := st.nIns + 1,
              nKeptReads := st.nKeptReads + 1 }, j + 1)
      | .delAdv r =>
          ({ st with
              qpos := st.qpos + r,
              rpos := st.rpos + (r : Int),
              nDel := st.nDel + 1,
              nKeptReads := st.nKeptReads + 1 }, j + r)
      | .delCopy =>
          (advance1 { pushBase seq qual st with
                        nKeptReads := st.nKeptReads + 1 }, j + 1)
      | .unsupported =>
          (advance1 { st with nKeptReads := st.nKeptReads + 1 }, j + 1)
    else
      (advance1 { pushBase seq qual st with
                    nSkipCmatches := st.nSkipCmatches + 1 }, j + 1)
  | [] =>
      (advance1 { pushBase seq qual st with
                    nSkipCmatches := st.nSkipCmatches + 1 }, j + 1)

/-- The per-base loop over one match/equal/diff operation
(`for (int j = 0; j < cigar_oplen1; j++)`), fuel-indexed: every iteration
increases `j` by at least one, so fuel equal to the operation length makes
the fuel-indexed loop coincide with the C loop. -/
def procMatch (tid : Int) (mutprob defFA : ℚ) (seq : List Char)
    (qual : List Nat) (oplen : Nat) : Nat → Nat → EngineState → EngineState
  | 0, _, st => st
  | fuel + 1, j, st =>
    if j < oplen then
      let p := matchStep tid mutprob defFA seq qual j oplen st
      procMatch tid mutprob defFA seq qual oplen fuel p.2 p.1
    else st

/-- Verbatim copy of `n` bases starting at query cursor `q` (the body of the
`BAM_CINS` branch, source lines 316-321). -/
def copySeq (seq : List Char) (q : Nat) : Nat → List Char
  | 0 => []
  | n + 1 => seq.getD q 'N' :: copySeq seq (q + 1) n

/-- Verbatim copy of `n` raw qualities starting at query cursor `q`. -/
def copyQual (qual : List Nat) (q : Nat) : Nat → List Nat
  | 0 => []
  | n + 1 => qual.getD q 0 :: copyQual qual (q + 1) n

/-- The cigar-operation dispatch of the mutation engine (source lines
228-333).  An operation kind outside match/equal/diff, insertion, deletion,
soft-clip and hard-clip reaches `abort()` in the source, modelled as `none`. -/
def procOps (tid : Int) (mutprob defFA : ℚ) (seq : List Char)
    (qual : List Nat) : List (Nat × Nat) → EngineState → Option EngineState
  | [], st => some st
  | (op, len) :: rest, st =>
    if op = BAM_CMATCH ∨ op = BAM_CEQUAL ∨ op = BAM_CDIFF then
      procOps tid mutprob defFA seq qual rest
        (procMatch tid mutprob defFA seq qual len len 0 st)
    else if op = BAM_CINS then
      procOps tid mutprob defFA seq qual rest
        { st with newseq := st.newseq ++ copySeq seq st.qpos len,
                  newqual := st.newqual ++ copyQual qual st.qpos len,
                  qpos := st.qpos + len }
    else if op = BAM_CSOFT_CLIP then
      procOps tid mutprob defFA seq qual rest { st with qpos := st.qpos + len }
    else if op = BAM_CDEL then
      procOps tid mutprob defFA seq qual rest
        { st with rpos := st.rpos + (len : Int) }
    else if op = BAM_CHARD_CLIP then
      procOps tid mutprob defFA seq qual rest st
    else none

/-- Initial engine state for one read: empty buffers, `qpos = 0`,
`rpos = read.pos`, the window iterator at the front of the window, counters
at zero. -/
def initState (r : BamRec) (window : List BcfRec) : EngineState :=
  { newseq := [], newqual := [], qpos := 0, rpos := r.pos, wrem := window,
    nKeptReads := 0, nSnv := 0, nMnv := 0, nIns := 0, nDel := 0,
    nSkipReads := 0, nSkipCmatches := 0 }

/-- The Read Mutation Engine: the cigar walk of source lines 223-333 run on
one read against the current window.  `none` models `abort()`. -/
def runEngine (defFA mutprob : ℚ) (r : BamRec) (window : List BcfRec) :
    Option EngineState :=
  procOps r.tid mutprob defFA r.seq r.qual r.cigar (initState r window)

/-- One emitted FASTQ record: destination stream (R2 exactly when the read
is not first-of-pair but is second-of-pair), the identifier line, the
emitted sequence, and the printable (already +33 shifted) quality values. -/
structure FastqOut where
  toR2 : Bool
  name : List Char
  outseq : List Char
  outqual : List Nat
deriving DecidableEq

/-- Output routing (source lines 82 and 105): R1 when flag bit 0x40 is set,
else R2 when flag bit 0x80 is set, else R1. -/
def routeR2 (flag : Nat) : Bool :=
  if flag &&& 0x40 ≠ 0 then false else if flag &&& 0x80 ≠ 0 then true else false

/-- Model of `bamrec_write_fastq_raw` (source lines 81-101): emit the read's
stored sequence and qualities unchanged, reverse-complementing the sequence
and reversing the (+33 shifted) quality string on reverse-strand reads. -/
def bamrec_write_fastq_raw (r : BamRec) : FastqOut :=
  let s := if r.flag &&& 0x10 ≠ 0 then revcomp r.seq else r.seq
  let q0 := r.qual.map (fun x => x + 33)
  let q := if r.flag &&& 0x10 ≠ 0 then q0.reverse else q0
  { toR2 := routeR2 r.flag, name := r.qname, outseq := s, outqual := q }

/-- Model of `bamrec_write_fastq` (source lines 104-119): emit the rewritten
buffers, shifting qualities by +33 and orienting by strand exactly as the
raw path does. -/
def bamrec_write_fastq (r : BamRec) (seq : List Char) (qual : List Nat) :
    FastqOut :=
  let q0 := qual.map (fun x => x + 33)
  let s := if r.flag &&& 0x10 ≠ 0 then revcomp seq else seq
  let q := if r.flag &&& 0x10 ≠ 0 then q0.reverse else q0
  { toR2 := routeR2 r.flag, name := r.qname, outseq := s, outqual := q }

/-- State of the variant stream and window carried across reads by the
driver loop: the prep record buffer `vcf_rec`, the last `vcf_read` return
value, the not-yet-read tail of the variant source, and `vcf_list`. -/
structure SyncState where
  prep : BcfRec
  ret : Int
  rest : List BcfRec
  window : List BcfRec
deriving DecidableEq

/-- The initial stream state of the driver: the prep buffer is initialised
to `rid = -1, pos = 0` (source lines 167-168) and nothing has been read. -/
def initSync (source : List BcfRec) : SyncState :=
  { prep := { rid := -1, pos := 0, ref := [], alt := [], fa := none },
    ret := 0, rest := source, window := [] }

/-- The Stream Synchronizer for one read (source lines 187-214): skip-ahead,
fetch-ahead, then evict. -/
def syncForRead (r : BamRec) (s : SyncState) : SyncState :=
  let a := skipAhead r.tid r.pos s.prep s.ret s.rest
  let b := fetchAhead r.tid (bam_endpos r) a.1 a.2.1 a.2.2 s.window
  { prep := b.1, ret := b.2.1, rest := b.2.2.1,
    window := evict r.tid r.pos b.2.2.2 }

/-- One iteration of the driver loop (source lines 184-338) for one read:
secondary/supplementary reads (flag & 0x900) are skipped outright; otherwise
the window is synchronized, and the read is either walked by the mutation
engine and emitted, walked and aborted (`none`), or — when the window is
empty — emitted through the raw bypass.  The second component is `none` on
abort, `some none` when the read produced no output without aborting, and
`some (some f)` when the record `f` was emitted. -/
def processRead (defFA : ℚ) (s : SyncState) (r : BamRec) :
    SyncState × Option (Option FastqOut) :=
  if r.flag &&& 0x900 ≠ 0 then (s, some none)
  else
    let s2 := syncForRead r s
    let mutprob := (umistr2prob r.qname).1
    if s2.window.length > 0 then
      match runEngine defFA mutprob r s2.window with
      | none => (s2, none)
      | some st => (s2, some (some (bamrec_write_fastq r st.newseq st.newqual)))
    else (s2, some (some (bamrec_write_fastq_raw r)))

/-- The Deterministic Allele-Selector as claim C2 words it: hash the
substring STRICTLY BEFORE the first `#` (else the whole identifier); to be
compared against the code's `umistr2prob`, which passes `strchr`'s pointer
(the suffix starting AT the `#`) to the hash. -/
def umistr2probClaimC2 (s : List Char) : ℚ × Nat :=
  let k := ac_Wang_hash
    (ac_X31_hash_string (s.takeWhile (fun c => c ≠ '#')) ^^^ 0)
  (((k &&& 0xffffff : Nat) : ℚ) / (0x1000000 : ℚ), k)

/-- Cumulative allele fraction of the first `n` variants of a run (explicit
per-record FA when present, else the process-wide default). -/
def cumFA (defFA : ℚ) (run : List BcfRec) (n : Nat) : ℚ :=
  ((run.take n).map (fun v => v.fa.getD defFA)).sum

def vC3a : BcfRec := { rid := 0, pos := 0, ref := ['A'], alt := ['G'], fa := some (1/4) }

def vC3b : BcfRec := { rid := 0, pos := 0, ref := ['A'], alt := ['T'], fa := some (1/4) }

def vC1w : BcfRec := { rid := 0, pos := 7, ref := ['A'], alt := ['T'], fa := none }

def vC1 : BcfRec := { rid := 0, pos := 12, ref := ['A'], alt := ['T'], fa := none }

def rC1 : BamRec :=
  { tid := 0, pos := 10, qname := ['q'], flag := 0,
    cigar := [(BAM_CMATCH, 10)],
    seq := ['A','A','A','A','A','A','A','A','A','A'],
    qual := [1,1,1,1,1,1,1,1,1,1] }

def vC4 : BcfRec :=
  { rid := 0, pos := 0, ref := ['A','C','G'], alt := ['A'], fa := some 1 }

def rC4a : BamRec :=
  { tid := 0, pos := 0, qname := ['q'], flag := 0,
    cigar := [(BAM_CMATCH, 3)], seq := ['A','C','G'], qual := [10,11,12] }

def rC4b : BamRec :=
  { tid := 0, pos := 0, qname := ['q'], flag := 0,
    cigar := [(BAM_CMATCH, 4)], seq := ['A','C','G','T'], qual := [10,11,12,13] }

def stC4w : EngineState := initState rC4b [vC4]

def vC5 : BcfRec :=
  { rid := 0, pos := 0, ref := ['A','C'], alt := ['G','T','T'], fa := some 1 }

def rC5 : BamRec :=
  { tid := 0, pos := 0, qname := ['q'], flag := 0,
    cigar := [(BAM_CMATCH, 2)], seq := ['A','C'], qual := [5,6] }

def stC5w : EngineState := initState rC5 [vC5]

def rC10 : BamRec :=
  { tid := 0, pos := 0, qname := ['q'], flag := 0,
    cigar := [], seq := [], qual := [] }

/-- The cigar operation kinds the engine's dispatch recognises; any other
kind reaches `abort()`. -/
def validCigarOp (op : Nat) : Bool :=
  decide (op = BAM_CMATCH) || decide (op = BAM_CEQUAL) || decide (op = BAM_CDIFF) ||
  decide (op = BAM_CINS) || decide (op = BAM_CSOFT_CLIP) || decide (op = BAM_CDEL) ||
  decide (op = BAM_CHARD_CLIP)

def v71 : BcfRec := { rid := 0, pos := 1, ref := ['A'], alt := ['T'], fa := none }

def v72 : BcfRec := { rid := 0, pos := 2, ref := ['A'], alt := ['T'], fa := none }

def rC7w : BamRec :=
  { tid := 0, pos := 0, qname := ['q'], flag := 0,
    cigar := [(BAM_CMATCH, 5), (BAM_CREF_SKIP, 1)],
    seq := ['A','C','G','T','A'], qual := [1,1,1,1,1] }

def rC7 : BamRec :=
  { tid := 0, pos := 0, qname := ['q'], flag := 0,
    cigar := [(BAM_CREF_SKIP, 5)], seq := [], qual := [] }

/-- Number of query bases consumed by a cigar, as in htslib's
`bam_cigar2qlen` (ops M, I, S, =, X consume query). -/
def cigar2qlen (ops : List (Nat × Nat)) : Nat :=
  (ops.map (fun p =>
    if p.1 = BAM_CMATCH ∨ p.1 = BAM_CINS ∨ p.1 = BAM_CSOFT_CLIP ∨
       p.1 = BAM_CEQUAL ∨ p.1 = BAM_CDIFF then p.2 else 0)).sum

/-- Total length of the match/equal/diff operations of a cigar (the number
of per-base iterations of the engine's inner loop, used only to account for
the no-variant counter). -/
def cigar2mlen (ops : List (Nat × Nat)) : Nat :=
  (ops.map (fun p =>
    if p.1 = BAM_CMATCH ∨ p.1 = BAM_CEQUAL ∨ p.1 = BAM_CDIFF then p.2 else 0)).sum

def rC6w : BamRec :=
  { tid := 0, pos := 0, qname := ['q'], flag := 0,
    cigar := [(BAM_CMATCH, 2)], seq := ['A','C'], qual := [7,8] }

def stC6i : EngineState := initState rC6w []

def rC6 : BamRec :=
  { tid := 0, pos := 0, qname := ['q'], flag := 0,
    cigar := [(BAM_CSOFT_CLIP, 1), (BAM_CMATCH, 1)],
    seq := ['A','C'], qual := [5,6] }

theorem complementChar_invol (c : Char)
    (h : c ∈ ['A','C','G','T','a','c','g','t']) :
    complementChar (complementChar c) = c := by
  simp only [List.mem_cons, List.not_mem_nil, or_false] at h
  rcases h with rfl | rfl | rfl | rfl | rfl | rfl | rfl | rfl <;> rfl

/-- C8: for every string over {A,C,G,T} and their lowercase forms, the
emission-time reverse-then-complement transform is an involution. -/
theorem spec_C8 (s : List Char)
    (h : ∀ c ∈ s, c ∈ ['A','C','G','T','a','c','g','t']) :
    revcomp (revcomp s) = s := by
  simp only [revcomp, complement, List.map_reverse, List.reverse_reverse,
    List.map_map]
  calc s.map (complementChar ∘ complementChar) = s.map id := by
        refine List.map_congr_left ?_
        intro c hc
        simpa using complementChar_invol c (h c hc)
    _ = s := List.map_id s

/-- Witness for C8 at the concrete string ACGT. -/
theorem spec_C8_witness : revcomp (revcomp ['A','C','G','T']) = ['A','C','G','T'] :=
  spec_C8 ['A','C','G','T'] (by decide)

/-- C9: the selector's fraction is exactly the low 24 bits of the seed
scaled by 2^24, lies in [0,1), and the selector is a pure function of the
identifier (same input, same output). -/
theorem spec_C9 (s : List Char) :
    (umistr2prob s).1 =
      (((umistr2prob s).2 &&& 0xffffff : Nat) : ℚ) / (0x1000000 : ℚ)
    ∧ 0 ≤ (umistr2prob s).1 ∧ (umistr2prob s).1 < 1
    ∧ umistr2prob s = umistr2prob s := by
  refine ⟨rfl, ?_, ?_, rfl⟩
  · exact div_nonneg (Nat.cast_nonneg _) (by norm_num)
  · have hlt : ((umistr2prob s).2 &&& 0xffffff) < 0x1000000 :=
      Nat.lt_succ_of_le Nat.and_le_right
    have : (((umistr2prob s).2 &&& 0xffffff : Nat) : ℚ) < (0x1000000 : ℚ) := by
      exact_mod_cast hlt
    calc (umistr2prob s).1
        = (((umistr2prob s).2 &&& 0xffffff : Nat) : ℚ) / (0x1000000 : ℚ) := rfl
      _ < 1 := (div_lt_one (by norm_num)).mpr this

theorem strchrSuffix_not_mem {c : Char} {s : List Char} (h : c ∉ s) :
    strchrSuffix c s = none := by
  induction s with
  | nil => rfl
  | cons a t ih =>
    simp only [List.mem_cons, not_or] at h
    have hne : ¬ (a = c) := fun hac => h.1 hac.symm
    simp only [strchrSuffix, if_neg hne]
    exact ih h.2

theorem strchrSuffix_append {c : Char} {a b : List Char} (h : c ∉ a) :
    strchrSuffix c (a ++ c :: b) = some (c :: b) := by
  induction a with
  | nil => simp [strchrSuffix]
  | cons x t ih =>
    simp only [List.mem_cons, not_or] at h
    have hne : ¬ (x = c) := fun hac => h.1 hac.symm
    simp only [List.cons_append, strchrSuffix, if_neg hne]
    exact ih h.2

/-- C2 (amended): for an identifier of the form `a ++ '#' :: b` with no `#`
in `a`, the key hashed by `umistr2prob` is the suffix `'#' :: b` starting at
the first `#` (not the prefix `a`); an identifier without `#` is hashed
whole. -/
theorem spec_C2 (a b : List Char) (ha : '#' ∉ a) :
    umikey (a ++ '#' :: b) = '#' :: b ∧ umikey a = a ∧
    (umistr2prob (a ++ '#' :: b)).2 =
      ac_Wang_hash (ac_X31_hash_string ('#' :: b) ^^^ 0) := by
  have h1 : umikey (a ++ '#' :: b) = '#' :: b := by
    simp [umikey, strchrSuffix_append ha]
  refine ⟨h1, ?_, ?_⟩
  · simp [umikey, strchrSuffix_not_mem ha]
  · simp [umistr2prob, h1]

/-- Witness for C2 (amended) at the identifier AB#CD. -/
theorem spec_C2_witness :
    umikey ['A','B','#','C','D'] = ['#','C','D'] ∧ umikey ['A','B'] = ['A','B'] ∧
    (umistr2prob ['A','B','#','C','D']).2 =
      ac_Wang_hash (ac_X31_hash_string ['#','C','D'] ^^^ 0) :=
  spec_C2 ['A','B'] ['C','D'] (by decide)

/-- Counterexample to C2 as stated: on the identifier AB#CD the code's seed
is the hash of the suffix `#CD`, which differs from the hash of the prefix
`AB` that the claim asserts is hashed. -/
theorem spec_C2_cex :
    (umistr2prob ['A','B','#','C','D']).2 ≠ (umistr2probClaimC2 ['A','B','#','C','D']).2 := by
  decide

theorem cumFA_cons (defFA : ℚ) (v : BcfRec) (t : List BcfRec) (n : Nat) :
    cumFA defFA (v :: t) (n + 1) = v.fa.getD defFA + cumFA defFA t n := by
  simp [cumFA, List.take_succ_cons]

theorem evalRun_first_qualifying (mutprob defFA : ℚ) (j oplen : Nat) :
    ∀ (run : List BcfRec) (acc : ℚ) (k : Nat) (hk : k < run.length),
      mutprob ≤ acc + cumFA defFA run (k + 1) →
      (∀ i, i < k → ¬ mutprob ≤ acc + cumFA defFA run (i + 1)) →
      evalRun mutprob defFA j oplen run acc =
        shapeOutcome j oplen (run.get ⟨k, hk⟩) := by
  intro run
  induction run with
  | nil => intro acc k hk; exact absurd hk (Nat.not_lt_zero k)
  | cons v t ih =>
    intro acc k hk hsel hmin
    match k with
    | 0 =>
      have h0 : mutprob ≤ acc + v.fa.getD defFA := by
        have := hsel
        rwa [cumFA_cons, cumFA, List.take_zero, List.map_nil, List.sum_nil,
          add_zero] at this
      simp [evalRun, if_pos h0]
    | k + 1 =>
      have hne : ¬ mutprob ≤ acc + v.fa.getD defFA := by
        have := hmin 0 (Nat.succ_pos k)
        rwa [cumFA_cons, cumFA, List.take_zero, List.map_nil, List.sum_nil,
          add_zero] at this
      have hk2 : k < t.length := Nat.lt_of_succ_lt_succ hk
      have hsel2 : mutprob ≤ (acc + v.fa.getD defFA) + cumFA defFA t (k + 1) := by
        rwa [cumFA_cons, ← add_assoc] at hsel
      have hmin2 : ∀ i, i < k → ¬ mutprob ≤ (acc + v.fa.getD defFA) + cumFA defFA t (i + 1) := by
        intro i hi
        have := hmin (i + 1) (Nat.succ_lt_succ hi)
        rwa [cumFA_cons, ← add_assoc] at this
      calc evalRun mutprob defFA j oplen (v :: t) acc
          = evalRun mutprob defFA j oplen t (acc + v.fa.getD defFA) := by
            simp [evalRun, if_neg hne]
        _ = shapeOutcome j oplen (t.get ⟨k, hk2⟩) := ih _ k hk2 hsel2 hmin2
        _ = shapeOutcome j oplen ((v :: t).get ⟨k + 1, hk⟩) := rfl

theorem evalRun_none_qualifying (mutprob defFA : ℚ) (j oplen : Nat) :
    ∀ (run : List BcfRec) (acc : ℚ),
      (∀ i, i < run.length → ¬ mutprob ≤ acc + cumFA defFA run (i + 1)) →
      evalRun mutprob defFA j oplen run acc = .notMutated := by
  intro run
  induction run with
  | nil => intro acc _; rfl
  | cons v t ih =>
    intro acc hmin
    have hne : ¬ mutprob ≤ acc + v.fa.getD defFA := by
      have := hmin 0 (Nat.succ_pos t.length)
      rwa [cumFA_cons, cumFA, List.take_zero, List.map_nil, List.sum_nil,
        add_zero] at this
    have hmin2 : ∀ i, i < t.length → ¬ mutprob ≤ (acc + v.fa.getD defFA) + cumFA defFA t (i + 1) := by
      intro i hi
      have := hmin (i + 1) (Nat.succ_lt_succ hi)
      rwa [cumFA_cons, ← add_assoc] at this
    calc evalRun mutprob defFA j oplen (v :: t) acc
        = evalRun mutprob defFA j oplen t (acc + v.fa.getD defFA) := by
          simp [evalRun, if_neg hne]
      _ = .notMutated := ih _ hmin2

/-- C3 (amended): within a run of equal-position variants, the k-th variant
is the one applied exactly when the read's shared fraction is at most the
CUMULATIVE sum of the allele fractions of variants 0..k of the run (each
taken from its record's FA field, else the process default) and no earlier
variant's cumulative sum already reached the fraction; when no cumulative
prefix sum reaches the fraction, no variant is applied.  The first
qualifying variant wins and later variants of the run are not tried. -/
theorem spec_C3 (mutprob defFA : ℚ) (j oplen : Nat) (run : List BcfRec) :
    (∀ k, (hk : k < run.length) → mutprob ≤ cumFA defFA run (k + 1) →
      (∀ i, i < k → ¬ mutprob ≤ cumFA defFA run (i + 1)) →
      evalRun mutprob defFA j oplen run 0 =
        shapeOutcome j oplen (run.get ⟨k, hk⟩))
    ∧ ((∀ i, i < run.length → ¬ mutprob ≤ cumFA defFA run (i + 1)) →
      evalRun mutprob defFA j oplen run 0 = .notMutated) := by
  constructor
  · intro k hk hsel hmin
    exact evalRun_first_qualifying mutprob defFA j oplen run 0 k hk
      (by rwa [zero_add]) (by intro i hi; rw [zero_add]; exact hmin i hi)
  · intro hmin
    exact evalRun_none_qualifying mutprob defFA j oplen run 0
      (by intro i hi; rw [zero_add]; exact hmin i hi)

/-- Witness for C3 (amended): with shared fraction 3/8 and per-variant
fractions 1/4 and 1/4, the second variant of the run (index 1) is applied. -/
theorem spec_C3_witness :
    evalRun (3/8) (1/10) 0 5 [vC3a, vC3b] 0 =
      shapeOutcome 0 5 ([vC3a, vC3b].get ⟨1, by decide⟩) :=
  (spec_C3 (3/8) (1/10) 0 5 [vC3a, vC3b]).1 1 (by decide)
    (by norm_num [cumFA, vC3a, vC3b])
    (by intro i hi
        interval_cases i
        norm_num [cumFA, vC3a, vC3b])

/-- Counterexample to C3 as stated: the same run applies the second variant
(an SNV to T) even though the read's shared fraction 3/8 exceeds EACH
variant's own allele fraction 1/4 — the test is against the accumulating
`allelefrac +=`, not each variant's own value, so under the claim's reading
no variant at all should have been applied. -/
theorem spec_C3_cex :
    evalRun (3/8) (1/10) 0 5 [vC3a, vC3b] 0 = RunOutcome.snv 'T'
    ∧ ¬ ((3:ℚ)/8 ≤ vC3a.fa.getD (1/10))
    ∧ ¬ ((3:ℚ)/8 ≤ vC3b.fa.getD (1/10)) := by
  refine ⟨?_, ?_, ?_⟩ <;> norm_num [evalRun, shapeOutcome, vC3a, vC3b]

theorem is_before_trans_neg {r1 p1 r2 p2 tid pos : Int}
    (h1 : is_var1_before_var2 r1 p1 r2 p2 = false)
    (h2 : is_var1_before_var2 r2 p2 tid pos = false) :
    is_var1_before_var2 r1 p1 tid pos = false := by
  simp only [is_var1_before_var2, Bool.or_eq_false_iff, Bool.and_eq_false_iff,
    decide_eq_false_iff_not] at h1 h2 ⊢
  omega

theorem evict_not_before (tid pos : Int) :
    ∀ (w : List BcfRec), WinSorted w →
      ∀ v ∈ evict tid pos w, is_var1_before_var2 v.rid v.pos tid pos = false := by
  intro w
  induction w with
  | nil => intro _ v hv; simp [evict] at hv
  | cons a t ih =>
    intro hs v hv
    have hs2 := (List.pairwise_cons.mp hs)
    by_cases hb : is_var1_before_var2 a.rid a.pos tid pos = true
    · rw [evict, if_pos hb] at hv
      exact ih hs2.2 v hv
    · rw [evict, if_neg hb] at hv
      rcases List.mem_cons.mp hv with rfl | hvt
      · exact Bool.not_eq_true _ ▸ (Bool.eq_false_iff.mpr hb)
      · exact is_before_trans_neg (hs2.1 v hvt) (Bool.eq_false_iff.mpr hb)

theorem fetchAhead_window (tid endp : Int) :
    ∀ (rest : List BcfRec) (prep : BcfRec) (window : List BcfRec),
      (fetchAhead tid endp prep 0 rest window).2.2.2 =
        window ++ fetchTaken tid endp prep rest := by
  intro rest
  induction rest with
  | nil =>
    intro prep window
    by_cases hb : is_var1_before_var2 prep.rid prep.pos tid endp = true
    · simp [fetchAhead, fetchTaken, hb]
    · simp only [Bool.not_eq_true] at hb
      simp [fetchAhead, fetchTaken, hb]
  | cons v t ih =>
    intro prep window
    by_cases hb : is_var1_before_var2 prep.rid prep.pos tid endp = true
    · have h0 : ¬ ((0 : Int) = -1) := by decide
      simp only [fetchAhead, fetchTaken, hb, if_true, if_neg h0,
        ih v (window ++ [v])]
      simp
    · simp only [Bool.not_eq_true] at hb
      simp [fetchAhead, fetchTaken, hb]

theorem fetchTaken_take (tid endp : Int) :
    ∀ (rest : List BcfRec) (prep : BcfRec),
      ∃ k, fetchTaken tid endp prep rest = rest.take k := by
  intro rest
  induction rest with
  | nil => intro prep; exact ⟨0, by unfold fetchTaken; split <;> rfl⟩
  | cons v t ih =>
    intro prep
    by_cases hb : is_var1_before_var2 prep.rid prep.pos tid endp = true
    · rcases ih v with ⟨k, hk⟩
      exact ⟨k + 1, by rw [fetchTaken, if_pos hb, hk]; rfl⟩
    · exact ⟨0, by rw [fetchTaken, if_neg hb]; rfl⟩

/-- C1 (amended): given sorted inputs, after the three sync phases (i) every
variant remaining in the window after eviction is at or after the read's
start (no variant strictly before it survives, provided the window is in
non-decreasing coordinate order); (ii) the fetch-ahead phase appends to the
back of the window exactly the stream successors of the current prep
variant, reading each next record BEFORE duplicating, so the pushed records
form a prefix of the remaining stream and the prep variant itself — even
when its position lies inside [read.start, read.end) — is never pushed. -/
theorem spec_C1 :
    (∀ (tid pos : Int) (w : List BcfRec), WinSorted w →
        ∀ v ∈ evict tid pos w, is_var1_before_var2 v.rid v.pos tid pos = false)
    ∧ (∀ (tid endp : Int) (prep : BcfRec) (rest window : List BcfRec),
        (fetchAhead tid endp prep 0 rest window).2.2.2 =
          window ++ fetchTaken tid endp prep rest)
    ∧ (∀ (tid endp : Int) (prep : BcfRec) (rest : List BcfRec),
        ∃ k, fetchTaken tid endp prep rest = rest.take k) :=
  ⟨evict_not_before,
   fun tid endp prep rest window => fetchAhead_window tid endp rest prep window,
   fun tid endp prep rest => fetchTaken_take tid endp rest prep⟩

/-- Witness for C1 (amended) on a one-variant window and an empty stream. -/
theorem spec_C1_witness :
    is_var1_before_var2 vC1w.rid vC1w.pos 0 5 = false
    ∧ (fetchAhead 0 20 vC1w 0 [] []).2.2.2 = [] ++ fetchTaken 0 20 vC1w []
    ∧ ∃ k, fetchTaken 0 20 vC1w [] = List.take k ([] : List BcfRec) :=
  ⟨spec_C1.1 0 5 [vC1w] (by decide) vC1w (by decide),
   spec_C1.2.1 0 20 vC1w [] [],
   spec_C1.2.2 0 20 vC1w []⟩

/-- Counterexample to C1 as stated: a single source variant at position 12
lies inside the read's span [10, 20), yet after the skip/fetch/evict phases
the window is empty — the skip-ahead loop leaves the variant in the prep
buffer and the fetch-ahead loop reads past it (pulling before duplicating),
so it is never fetched into the window before the read is mutated. -/
theorem spec_C1_cex :
    is_var1_before_var2 vC1.rid vC1.pos rC1.tid rC1.pos = false
    ∧ is_var1_before_var2 vC1.rid vC1.pos rC1.tid (bam_endpos rC1) = true
    ∧ (syncForRead rC1 (initSync [vC1])).window = [] := by
  decide

theorem is_before_self (tid p : Int) : is_var1_before_var2 tid p tid p = false := by
  simp [is_var1_before_var2]

/-- C4 (amended): for a qualifying deletion variant (ref length > 1, alt
length 1) at the head of the run anchored at the current reference position:
when strictly more than `len(ref) - 1` further positions remain in the
current match operation (the code's guard is `strlen(ref) + j < oplen`, so
at least `len(ref)` positions must follow index `j`), the intra-operation
index, `query_pos` and `ref_pos` all advance by `len(ref) - 1` extra (total
`len(ref)`), the deletion counter is incremented, and NOTHING is appended
for the current base either, so `len(ref)` query bases in total are consumed
without being emitted; otherwise — including a deletion that would end
exactly at the operation boundary — the untouched original base and quality
are copied and no counter but the kept-read counter changes. -/
theorem spec_C4 (tid : Int) (mutprob defFA : ℚ) (seq : List Char)
    (qual : List Nat) (j oplen : Nat) (st : EngineState) (v : BcfRec)
    (w : List BcfRec) (hw : st.wrem = v :: w) (hrid : v.rid = tid)
    (hpos : v.pos = st.rpos) (hq : mutprob ≤ v.fa.getD defFA)
    (hr : 1 < v.ref.length) (ha : v.alt.length = 1) :
    (v.ref.length + j < oplen →
      matchStep tid mutprob defFA seq qual j oplen st =
        ({ st with qpos := st.qpos + v.ref.length,
                   rpos := st.rpos + (v.ref.length : Int),
                   nDel := st.nDel + 1,
                   nKeptReads := st.nKeptReads + 1 }, j + v.ref.length))
    ∧ (¬ v.ref.length + j < oplen →
      matchStep tid mutprob defFA seq qual j oplen st =
        ({ st with newseq := st.newseq ++ [seq.getD st.qpos 'N'],
                   newqual := st.newqual ++ [qual.getD st.qpos 0],
                   qpos := st.qpos + 1, rpos := st.rpos + 1,
                   nKeptReads := st.nKeptReads + 1 }, j + 1)) := by
  obtain ⟨ns, nq, qp, rp, wr, c1, c2, c3, c4, c5, c6, c7⟩ := st
  simp only at hw hpos
  subst hw
  subst hpos
  have hnb : is_var1_before_var2 v.rid v.pos tid v.pos = false := by
    simp [is_var1_before_var2, hrid]
  have hpred : (v.rid == v.rid && v.pos == v.pos) = true := by simp
  have hsh : shapeOutcome j oplen v =
      (if v.ref.length + j < oplen then RunOutcome.delAdv v.ref.length
       else RunOutcome.delCopy) := by
    have h1 : ¬ (v.ref.length = 1 ∧ v.alt.length = 1) := by omega
    have h2 : ¬ (v.ref.length = v.alt.length) := by omega
    have h3 : ¬ (v.ref.length = 1 ∧ 1 < v.alt.length) := by omega
    have h4 : 1 < v.ref.length ∧ v.alt.length = 1 := ⟨hr, ha⟩
    rw [shapeOutcome, if_neg h1, if_neg h2, if_neg h3, if_pos h4]
  have heval : evalRun mutprob defFA j oplen
      (List.takeWhile (fun u => u.rid == v.rid && u.pos == v.pos) (v :: w)) 0 =
      shapeOutcome j oplen v := by
    have htw : List.takeWhile (fun u => u.rid == v.rid && u.pos == v.pos) (v :: w)
        = v :: List.takeWhile (fun u => u.rid == v.rid && u.pos == v.pos) w := by
      simp [List.takeWhile_cons]
    rw [htw]
    simp only [evalRun, zero_add]
    rw [if_pos hq]
  have hdrop : List.dropWhile
      (fun u => is_var1_before_var2 u.rid u.pos tid v.pos) (v :: w) = v :: w := by
    rw [List.dropWhile_cons_of_neg]
    simp [hnb]
  constructor
  · intro hcond
    simp only [matchStep, hdrop, heval, hsh, if_pos hcond, if_pos rfl]
    simp
  · intro hcond
    simp only [matchStep, hdrop, heval, hsh, if_neg hcond, if_pos rfl,
      advance1, pushBase]
    simp

/-- Witness for C4 (amended): a qualifying ACG-to-A deletion at index 0 of a
match operation of length 4 advances the cursors by 3 and appends nothing. -/
theorem spec_C4_witness :
    matchStep 0 0 1 ['A','C','G','T'] [10,11,12,13] 0 4 stC4w =
      ({ stC4w with qpos := 3, rpos := 3, nDel := 1,
                    nKeptReads := 1 }, 3) := by
  have h := (spec_C4 0 0 1 ['A','C','G','T'] [10,11,12,13] 0 4
      stC4w vC4 [] (by decide) (by decide) (by decide)
      (by decide) (by decide) (by decide)).1 (by decide)
  simpa [stC4w, initState, rC4b, vC4] using h

/-- Counterexample to C4 as stated, in two parts run on the whole engine.
Part one: read rC4a has a length-3 match block, the deletion (ref ACG) sits
at index 0, and the remaining length of the operation (2 further positions)
CAN absorb len(ref)-1 = 2 additional reference bases, yet the code's guard
`strlen(ref)+j < oplen` fails (3 + 0 = 3, not < 3), so the deletion counter
stays 0 and the untouched bases are copied.  Part two: on read rC4b the
deletion applies, but the emitted sequence has 1 base, not the 2 the claim's
`exactly len(ref)-1 query bases are consumed without being appended`
predicts (all len(ref) = 3 query bases are consumed unappended, including
the current one). -/
theorem spec_C4_cex :
    (runEngine 1 0 rC4a [vC4]).map (fun st => (st.newseq, st.nDel)) =
      some (['A','C','G'], 0)
    ∧ (runEngine 1 0 rC4b [vC4]).map (fun st => (st.newseq, st.newqual, st.nDel)) =
      some (['T'], [13], 1) := by
  refine ⟨?_, ?_⟩ <;>
    norm_num [runEngine, procOps, procMatch, matchStep, evalRun, shapeOutcome,
      pushBase, advance1, initState, rC4a, rC4b, vC4, is_var1_before_var2,
      BAM_CMATCH, BAM_CEQUAL, BAM_CDIFF, BAM_CINS, BAM_CSOFT_CLIP, BAM_CDEL,
      BAM_CHARD_CLIP, List.dropWhile, List.takeWhile]

/-- C5 (amended): when the variant winning the fraction test at a match
position has an unsupported ref/alt shape, a diagnostic is logged and
processing continues, but the base is NOT re-emitted: nothing is appended to
either output buffer for that query position (the code sets `is_mutated`
and breaks, skipping the copy), the cursors advance past the base, and only
the kept-read counter changes. -/
theorem spec_C5 (tid : Int) (mutprob defFA : ℚ) (seq : List Char)
    (qual : List Nat) (j oplen : Nat) (st : EngineState) (v : BcfRec)
    (w : List BcfRec) (hw : st.wrem = v :: w) (hrid : v.rid = tid)
    (hpos : v.pos = st.rpos) (hq : mutprob ≤ v.fa.getD defFA)
    (h1 : ¬ (v.ref.length = 1 ∧ v.alt.length = 1))
    (h2 : v.ref.length ≠ v.alt.length)
    (h3 : ¬ (v.ref.length = 1 ∧ 1 < v.alt.length))
    (h4 : ¬ (1 < v.ref.length ∧ v.alt.length = 1)) :
    matchStep tid mutprob defFA seq qual j oplen st =
      ({ st with qpos := st.qpos + 1, rpos := st.rpos + 1,
                 nKeptReads := st.nKeptReads + 1 }, j + 1) := by
  obtain ⟨ns, nq, qp, rp, wr, c1, c2, c3, c4, c5, c6, c7⟩ := st
  simp only at hw hpos
  subst hw
  subst hpos
  have hnb : is_var1_before_var2 v.rid v.pos tid v.pos = false := by
    simp [is_var1_before_var2, hrid]
  have hsh : shapeOutcome j oplen v = RunOutcome.unsupported := by
    rw [shapeOutcome, if_neg h1, if_neg h2, if_neg h3, if_neg h4]
  have heval : evalRun mutprob defFA j oplen
      (List.takeWhile (fun u => u.rid == v.rid && u.pos == v.pos) (v :: w)) 0 =
      shapeOutcome j oplen v := by
    have htw : List.takeWhile (fun u => u.rid == v.rid && u.pos == v.pos) (v :: w)
        = v :: List.takeWhile (fun u => u.rid == v.rid && u.pos == v.pos) w := by
      simp [List.takeWhile_cons]
    rw [htw]
    simp only [evalRun, zero_add]
    rw [if_pos hq]
  have hdrop : List.dropWhile
      (fun u => is_var1_before_var2 u.rid u.pos tid v.pos) (v :: w) = v :: w := by
    rw [List.dropWhile_cons_of_neg]
    simp [hnb]
  simp only [matchStep, hdrop, heval, hsh, if_pos rfl, advance1]
  simp

/-- Witness for C5 (amended) with a ref-length-2 alt-length-3 variant. -/
theorem spec_C5_witness :
    matchStep 0 0 1 ['A','C'] [5,6] 0 2 stC5w =
      ({ stC5w with qpos := 1, rpos := 1, nKeptReads := 1 }, 1) := by
  have h := spec_C5 0 0 1 ['A','C'] [5,6] 0 2 stC5w vC5 []
    (by decide) (by decide) (by decide) (by decide) (by decide) (by decide)
    (by decide) (by decide)
  simpa [stC5w, initState, rC5, vC5] using h

/-- Counterexample to C5 as stated: the read AC (qualities 5,6) walked
against a qualifying unsupported-shape variant (ref AC, alt GTT) at its
first base emits only the second base — the original base A and its quality
5 are NOT emitted at query position 0; the whole-read output is C/6. -/
theorem spec_C5_cex :
    (runEngine 1 0 rC5 [vC5]).map (fun st => (st.newseq, st.newqual)) =
      some (['C'], [6]) := by
  norm_num [runEngine, procOps, procMatch, matchStep, evalRun, shapeOutcome,
    pushBase, advance1, initState, rC5, vC5, is_var1_before_var2,
    BAM_CMATCH, BAM_CEQUAL, BAM_CDIFF, BAM_CINS, BAM_CSOFT_CLIP, BAM_CDEL,
    BAM_CHARD_CLIP, List.dropWhile, List.takeWhile]

theorem shapeOutcome_ins_len {j oplen : Nat} {v : BcfRec} {alt : List Char}
    (h : shapeOutcome j oplen v = RunOutcome.ins alt) : 1 < alt.length := by
  unfold shapeOutcome at h
  split_ifs at h with h1 h2 h3 h4 h5
  all_goals simp_all

theorem evalRun_ins_len (mutprob defFA : ℚ) (j oplen : Nat) :
    ∀ (run : List BcfRec) (acc : ℚ) (alt : List Char),
      evalRun mutprob defFA j oplen run acc = RunOutcome.ins alt →
      1 < alt.length := by
  intro run
  induction run with
  | nil => intro acc alt h; cases h
  | cons v t ih =>
    intro acc alt h
    simp only [evalRun] at h
    by_cases hc : mutprob ≤ acc + v.fa.getD defFA
    · rw [if_pos hc] at h; exact shapeOutcome_ins_len h
    · rw [if_neg hc] at h; exact ih _ _ h

theorem matchStep_len (tid : Int) (mutprob defFA : ℚ) (seq : List Char)
    (qual : List Nat) (j oplen : Nat) (st : EngineState)
    (h : st.newseq.length = st.newqual.length) :
    ((matchStep tid mutprob defFA seq qual j oplen st).1).newseq.length =
      ((matchStep tid mutprob defFA seq qual j oplen st).1).newqual.length := by
  cases hw : st.wrem.dropWhile
      (fun v => is_var1_before_var2 v.rid v.pos tid st.rpos) with
  | nil => simp [matchStep, hw, advance1, pushBase, h]
  | cons v rest =>
    by_cases hpos : st.rpos = v.pos
    · rw [hpos] at hw
      cases heval : evalRun mutprob defFA j oplen
          (v :: rest.takeWhile (fun u => u.rid == v.rid && u.pos == v.pos)) 0 with
      | notMutated => simp [matchStep, hw, hpos, heval, advance1, pushBase, h]
      | snv a => simp [matchStep, hw, hpos, heval, advance1, h]
      | mnv a => simp [matchStep, hw, hpos, heval, advance1, h]
      | ins alt =>
        have halt := evalRun_ins_len mutprob defFA j oplen _ _ _ heval
        simp [matchStep, hw, hpos, heval, advance1, h]
        omega
      | delAdv r => simp [matchStep, hw, hpos, heval, h]
      | delCopy => simp [matchStep, hw, hpos, heval, advance1, pushBase, h]
      | unsupported => simp [matchStep, hw, hpos, heval, advance1, h]
    · simp [matchStep, hw, hpos, advance1, pushBase, h]

theorem procMatch_len (tid : Int) (mutprob defFA : ℚ) (seq : List Char)
    (qual : List Nat) (oplen : Nat) :
    ∀ (fuel j : Nat) (st : EngineState),
      st.newseq.length = st.newqual.length →
      (procMatch tid mutprob defFA seq qual oplen fuel j st).newseq.length =
        (procMatch tid mutprob defFA seq qual oplen fuel j st).newqual.length := by
  intro fuel
  induction fuel with
  | zero => intro j st h; simpa [procMatch] using h
  | succ n ih =>
    intro j st h
    by_cases hj : j < oplen
    · simp only [procMatch, if_pos hj]
      exact ih _ _ (matchStep_len tid mutprob defFA seq qual j oplen st h)
    · simpa [procMatch, if_neg hj] using h

theorem copySeq_length (seq : List Char) : ∀ (n q : Nat),
    (copySeq seq q n).length = n := by
  intro n
  induction n with
  | zero => intro q; rfl
  | succ m ih => intro q; simp [copySeq, ih]

theorem copyQual_length (qual : List Nat) : ∀ (n q : Nat),
    (copyQual qual q n).length = n := by
  intro n
  induction n with
  | zero => intro q; rfl
  | succ m ih => intro q; simp [copyQual, ih]

theorem procOps_len (tid : Int) (mutprob defFA : ℚ) (seq : List Char)
    (qual : List Nat) :
    ∀ (ops : List (Nat × Nat)) (st st2 : EngineState),
      procOps tid mutprob defFA seq qual ops st = some st2 →
      st.newseq.length = st.newqual.length →
      st2.newseq.length = st2.newqual.length := by
  intro ops
  induction ops with
  | nil =>
    intro st st2 hp h
    simp only [procOps, Option.some.injEq] at hp
    exact hp ▸ h
  | cons p rest ih =>
    intro st st2 hp h
    obtain ⟨op, len⟩ := p
    simp only [procOps] at hp
    by_cases h1 : op = BAM_CMATCH ∨ op = BAM_CEQUAL ∨ op = BAM_CDIFF
    · rw [if_pos h1] at hp
      exact ih _ _ hp (procMatch_len tid mutprob defFA seq qual len len 0 st h)
    · rw [if_neg h1] at hp
      by_cases h2 : op = BAM_CINS
      · rw [if_pos h2] at hp
        refine ih _ _ hp ?_
        simp [copySeq_length, copyQual_length, h]
      · rw [if_neg h2] at hp
        by_cases h3 : op = BAM_CSOFT_CLIP
        · rw [if_pos h3] at hp
          exact ih _ _ hp h
        · rw [if_neg h3] at hp
          by_cases h4 : op = BAM_CDEL
          · rw [if_pos h4] at hp
            exact ih _ _ hp h
          · rw [if_neg h4] at hp
            by_cases h5 : op = BAM_CHARD_CLIP
            · rw [if_pos h5] at hp
              exact ih _ _ hp h
            · rw [if_neg h5] at hp
              cases hp

/-- C10: whatever read, window, shared fraction and default fraction the
Read Mutation Engine is run on, when it completes without aborting the
rewritten sequence and quality buffers have equal length — every branch of
the walk appends the same number of characters to both — so the
`assert(qual.size() == seq.size())` at emission time always holds. -/
theorem spec_C10 (defFA mutprob : ℚ) (r : BamRec) (window : List BcfRec)
    (st : EngineState) (h : runEngine defFA mutprob r window = some st) :
    st.newseq.length = st.newqual.length :=
  procOps_len r.tid mutprob defFA r.seq r.qual r.cigar (initState r window)
    st h rfl

/-- Witness for C10 on a concrete engine run. -/
theorem spec_C10_witness :
    (initState rC10 []).newseq.length = (initState rC10 []).newqual.length :=
  spec_C10 0 0 rC10 [] (initState rC10 []) rfl

theorem procOps_invalid (tid : Int) (mutprob defFA : ℚ) (seq : List Char)
    (qual : List Nat) :
    ∀ (ops : List (Nat × Nat)) (st : EngineState) (op len : Nat),
      (op, len) ∈ ops → validCigarOp op = false →
      procOps tid mutprob defFA seq qual ops st = none := by
  intro ops
  induction ops with
  | nil => intro st op len hmem _; cases hmem
  | cons p rest ih =>
    intro st op len hmem hbad
    obtain ⟨op0, len0⟩ := p
    simp only [validCigarOp, Bool.or_eq_false_iff, decide_eq_false_iff_not] at hbad
    obtain ⟨⟨⟨⟨⟨⟨hb1, hb2⟩, hb3⟩, hb4⟩, hb5⟩, hb6⟩, hb7⟩ := hbad
    rcases List.mem_cons.mp hmem with heq | hmem2
    · injection heq with he1 he2
      subst he1
      simp only [procOps]
      rw [if_neg (by tauto), if_neg hb4, if_neg hb5, if_neg hb6, if_neg hb7]
    · have hbad2 : validCigarOp op = false := by
        simp only [validCigarOp, Bool.or_eq_false_iff, decide_eq_false_iff_not]
        tauto
      simp only [procOps]
      by_cases h1 : op0 = BAM_CMATCH ∨ op0 = BAM_CEQUAL ∨ op0 = BAM_CDIFF
      · rw [if_pos h1]; exact ih _ op len hmem2 hbad2
      · rw [if_neg h1]
        by_cases h2 : op0 = BAM_CINS
        · rw [if_pos h2]; exact ih _ op len hmem2 hbad2
        · rw [if_neg h2]
          by_cases h3 : op0 = BAM_CSOFT_CLIP
          · rw [if_pos h3]; exact ih _ op len hmem2 hbad2
          · rw [if_neg h3]
            by_cases h4 : op0 = BAM_CDEL
            · rw [if_pos h4]; exact ih _ op len hmem2 hbad2
            · rw [if_neg h4]
              by_cases h5 : op0 = BAM_CHARD_CLIP
              · rw [if_pos h5]; exact ih _ op len hmem2 hbad2
              · rw [if_neg h5]

/-- C7 (amended): a read whose alignment-operation list contains an
unrecognised kind is fatal — the process aborts before emitting output for
that read — PROVIDED the read is actually walked by the mutation engine,
i.e. its synchronized variant window is non-empty; when the window is empty
the walk is bypassed entirely, the cigar is never inspected, and the read is
emitted through the raw path (see the counterexample). -/
theorem spec_C7 (defFA : ℚ) (s : SyncState) (r : BamRec) (op len : Nat)
    (hflag : r.flag &&& 0x900 = 0)
    (hwin : (syncForRead r s).window ≠ [])
    (hmem : (op, len) ∈ r.cigar) (hbad : validCigarOp op = false) :
    (processRead defFA s r).2 = none := by
  have heng : runEngine defFA (umistr2prob r.qname).1 r (syncForRead r s).window
      = none :=
    procOps_invalid r.tid (umistr2prob r.qname).1 defFA r.seq r.qual r.cigar
      (initState r (syncForRead r s).window) op len hmem hbad
  have hlen : (syncForRead r s).window.length > 0 :=
    List.length_pos.mpr hwin
  simp only [processRead, hflag, ne_eq, not_true_eq_false, if_neg,
    reduceIte, hlen, if_pos, heng]

/-- Witness for C7 (amended): a read with a BAM_CREF_SKIP operation and a
non-empty synchronized window aborts without emitting. -/
theorem spec_C7_witness :
    (processRead 1 (initSync [v71, v72]) rC7w).2 = none :=
  spec_C7 1 (initSync [v71, v72]) rC7w BAM_CREF_SKIP 1 (by decide) (by decide)
    (by decide) (by decide)

/-- Counterexample to C7 as stated: a read whose cigar holds only the
unrecognised BAM_CREF_SKIP operation is nevertheless emitted (through the
raw bypass) when its variant window is empty — the process does not abort,
because the cigar dispatch is only reached when the window is non-empty. -/
theorem spec_C7_cex :
    validCigarOp BAM_CREF_SKIP = false
    ∧ (BAM_CREF_SKIP, 5) ∈ rC7.cigar
    ∧ (processRead 1 (initSync []) rC7).2 =
        some (some (bamrec_write_fastq_raw rC7)) := by
  refine ⟨by decide, by decide, ?_⟩
  rfl

theorem matchStep_nilwin (tid : Int) (mutprob defFA : ℚ) (seq : List Char)
    (qual : List Nat) (j oplen : Nat) (st : EngineState) (hw : st.wrem = []) :
    matchStep tid mutprob defFA seq qual j oplen st =
      ({ st with newseq := st.newseq ++ [seq.getD st.qpos 'N'],
                 newqual := st.newqual ++ [qual.getD st.qpos 0],
                 qpos := st.qpos + 1, rpos := st.rpos + 1,
                 nSkipCmatches := st.nSkipCmatches + 1 }, j + 1) := by
  obtain ⟨ns, nq, qp, rp, wr, c1, c2, c3, c4, c5, c6, c7⟩ := st
  simp only at hw
  subst hw
  simp [matchStep, pushBase, advance1]

theorem procMatch_nilwin (tid : Int) (mutprob defFA : ℚ) (seq : List Char)
    (qual : List Nat) (oplen : Nat) :
    ∀ (fuel j : Nat) (st : EngineState), st.wrem = [] → oplen ≤ fuel + j →
      procMatch tid mutprob defFA seq qual oplen fuel j st =
        { st with newseq := st.newseq ++ copySeq seq st.qpos (oplen - j),
                  newqual := st.newqual ++ copyQual qual st.qpos (oplen - j),
                  qpos := st.qpos + (oplen - j),
                  rpos := st.rpos + ((oplen - j : Nat) : Int),
                  nSkipCmatches := st.nSkipCmatches + (oplen - j) } := by
  intro fuel
  induction fuel with
  | zero =>
    intro j st hw hfj
    have hz : oplen - j = 0 := by omega
    obtain ⟨ns, nq, qp, rp, wr, c1, c2, c3, c4, c5, c6, c7⟩ := st
    simp [procMatch, hz, copySeq, copyQual]
  | succ n ih =>
    intro j st hw hfj
    by_cases hj : j < oplen
    · have hn : oplen - j = (oplen - (j + 1)) + 1 := by omega
      simp only [procMatch, if_pos hj,
        matchStep_nilwin tid mutprob defFA seq qual j oplen st hw]
      rw [ih (j + 1) _ (by simp [hw]) (by omega)]
      obtain ⟨ns, nq, qp, rp, wr, c1, c2, c3, c4, c5, c6, c7⟩ := st
      simp only [hn, copySeq, copyQual]
      simp [EngineState.mk.injEq]
      refine ⟨by omega, by ring, by omega⟩
    · have hz : oplen - j = 0 := by omega
      obtain ⟨ns, nq, qp, rp, wr, c1, c2, c3, c4, c5, c6, c7⟩ := st
      simp [procMatch, if_neg hj, hz, copySeq, copyQual]

theorem copySeq_append (seq : List Char) :
    ∀ (m n q : Nat), copySeq seq q (m + n) = copySeq seq q m ++ copySeq seq (q + m) n := by
  intro m
  induction m with
  | zero => intro n q; simp [copySeq]
  | succ k ih =>
    intro n q
    have : k + 1 + n = (k + n) + 1 := by omega
    rw [this]
    simp only [copySeq, ih n (q + 1), List.cons_append]
    have h2 : q + 1 + k = q + (k + 1) := by omega
    rw [h2]

theorem copyQual_append (qual : List Nat) :
    ∀ (m n q : Nat), copyQual qual q (m + n) = copyQual qual q m ++ copyQual qual (q + m) n := by
  intro m
  induction m with
  | zero => intro n q; simp [copyQual]
  | succ k ih =>
    intro n q
    have : k + 1 + n = (k + n) + 1 := by omega
    rw [this]
    simp only [copyQual, ih n (q + 1), List.cons_append]
    have h2 : q + 1 + k = q + (k + 1) := by omega
    rw [h2]

theorem procOps_nilwin (tid : Int) (mutprob defFA : ℚ) (seq : List Char)
    (qual : List Nat) :
    ∀ (ops : List (Nat × Nat)) (st : EngineState), st.wrem = [] →
      (∀ p ∈ ops, p.1 = BAM_CMATCH ∨ p.1 = BAM_CINS ∨ p.1 = BAM_CDEL ∨
        p.1 = BAM_CHARD_CLIP ∨ p.1 = BAM_CEQUAL ∨ p.1 = BAM_CDIFF) →
      procOps tid mutprob defFA seq qual ops st =
        some { st with
          newseq := st.newseq ++ copySeq seq st.qpos (cigar2qlen ops),
          newqual := st.newqual ++ copyQual qual st.qpos (cigar2qlen ops),
          qpos := st.qpos + cigar2qlen ops,
          rpos := st.rpos + ((cigar2rlen ops : Nat) : Int),
          nSkipCmatches := st.nSkipCmatches + cigar2mlen ops } := by
  intro ops
  induction ops with
  | nil =>
    intro st hw hops
    obtain ⟨ns, nq, qp, rp, wr, c1, c2, c3, c4, c5, c6, c7⟩ := st
    simp [procOps, cigar2qlen, cigar2rlen, cigar2mlen, copySeq, copyQual]
  | cons p rest ih =>
    intro st hw hops
    obtain ⟨op, len⟩ := p
    have hop := hops (op, len) (List.mem_cons_self _ _)
    have hops2 : ∀ p ∈ rest, p.1 = BAM_CMATCH ∨ p.1 = BAM_CINS ∨ p.1 = BAM_CDEL ∨
        p.1 = BAM_CHARD_CLIP ∨ p.1 = BAM_CEQUAL ∨ p.1 = BAM_CDIFF :=
      fun q hq => hops q (List.mem_cons_of_mem _ hq)
    simp only at hop
    have hql : cigar2qlen ((op, len) :: rest) =
        (if op = BAM_CMATCH ∨ op = BAM_CINS ∨ op = BAM_CSOFT_CLIP ∨
            op = BAM_CEQUAL ∨ op = BAM_CDIFF then len else 0) + cigar2qlen rest := by
      simp [cigar2qlen]
    have hrl : cigar2rlen ((op, len) :: rest) =
        (if op = BAM_CMATCH ∨ op = BAM_CDEL ∨ op = BAM_CREF_SKIP ∨
            op = BAM_CEQUAL ∨ op = BAM_CDIFF then len else 0) + cigar2rlen rest := by
      simp [cigar2rlen]
    have hml : cigar2mlen ((op, len) :: rest) =
        (if op = BAM_CMATCH ∨ op = BAM_CEQUAL ∨ op = BAM_CDIFF then len else 0)
          + cigar2mlen rest := by
      simp [cigar2mlen]
    rcases hop with h | h | h | h | h | h
    · -- BAM_CMATCH
      subst h
      rw [procOps, if_pos (by simp [BAM_CMATCH, BAM_CEQUAL, BAM_CDIFF]),
        procMatch_nilwin tid mutprob defFA seq qual len len 0 st hw (by omega),
        ih _ (by simp [hw]) hops2]
      simp only [Nat.sub_zero, hql, hrl, hml]
      norm_num [BAM_CMATCH, BAM_CINS, BAM_CDEL, BAM_CREF_SKIP, BAM_CSOFT_CLIP,
        BAM_CHARD_CLIP, BAM_CEQUAL, BAM_CDIFF]
      simp [EngineState.mk.injEq, copySeq_append, copyQual_append]
      exact ⟨by omega, by ring, by omega⟩
    · -- BAM_CINS
      subst h
      rw [procOps, if_neg (by simp [BAM_CMATCH, BAM_CINS, BAM_CEQUAL, BAM_CDIFF]),
        if_pos rfl, ih _ (by simp [hw]) hops2]
      simp only [hql, hrl, hml]
      norm_num [BAM_CMATCH, BAM_CINS, BAM_CDEL, BAM_CREF_SKIP, BAM_CSOFT_CLIP,
        BAM_CHARD_CLIP, BAM_CEQUAL, BAM_CDIFF]
      refine ⟨(copySeq_append seq len (cigar2qlen rest) st.qpos).symm,
        (copyQual_append qual len (cigar2qlen rest) st.qpos).symm, by omega⟩
    · -- BAM_CDEL
      subst h
      rw [procOps, if_neg (by simp [BAM_CMATCH, BAM_CDEL, BAM_CEQUAL, BAM_CDIFF]),
        if_neg (by simp [BAM_CDEL, BAM_CINS]), if_neg (by simp [BAM_CDEL, BAM_CSOFT_CLIP]),
        if_pos rfl, ih _ (by simp [hw]) hops2]
      simp only [hql, hrl, hml]
      norm_num [BAM_CMATCH, BAM_CINS, BAM_CDEL, BAM_CREF_SKIP, BAM_CSOFT_CLIP,
        BAM_CHARD_CLIP, BAM_CEQUAL, BAM_CDIFF]
      ring
    · -- BAM_CHARD_CLIP
      subst h
      rw [procOps, if_neg (by simp [BAM_CMATCH, BAM_CHARD_CLIP, BAM_CEQUAL, BAM_CDIFF]),
        if_neg (by simp [BAM_CHARD_CLIP, BAM_CINS]),
        if_neg (by simp [BAM_CHARD_CLIP, BAM_CSOFT_CLIP]),
        if_neg (by simp [BAM_CHARD_CLIP, BAM_CDEL]), if_pos rfl,
        ih _ hw hops2]
      simp only [hql, hrl, hml]
      norm_num [BAM_CMATCH, BAM_CINS, BAM_CDEL, BAM_CREF_SKIP, BAM_CSOFT_CLIP,
        BAM_CHARD_CLIP, BAM_CEQUAL, BAM_CDIFF]
    · -- BAM_CEQUAL
      subst h
      rw [procOps, if_pos (by simp [BAM_CMATCH, BAM_CEQUAL, BAM_CDIFF]),
        procMatch_nilwin tid mutprob defFA seq qual len len 0 st hw (by omega),
        ih _ (by simp [hw]) hops2]
      simp only [Nat.sub_zero, hql, hrl, hml]
      norm_num [BAM_CMATCH, BAM_CINS, BAM_CDEL, BAM_CREF_SKIP, BAM_CSOFT_CLIP,
        BAM_CHARD_CLIP, BAM_CEQUAL, BAM_CDIFF]
      simp [EngineState.mk.injEq, copySeq_append, copyQual_append]
      refine ⟨by omega, by ring, by omega⟩
    · -- BAM_CDIFF
      subst h
      rw [procOps, if_pos (by simp [BAM_CMATCH, BAM_CEQUAL, BAM_CDIFF]),
        procMatch_nilwin tid mutprob defFA seq qual len len 0 st hw (by omega),
        ih _ (by simp [hw]) hops2]
      simp only [Nat.sub_zero, hql, hrl, hml]
      norm_num [BAM_CMATCH, BAM_CINS, BAM_CDEL, BAM_CREF_SKIP, BAM_CSOFT_CLIP,
        BAM_CHARD_CLIP, BAM_CEQUAL, BAM_CDIFF]
      simp [EngineState.mk.injEq, copySeq_append, copyQual_append]
      refine ⟨by omega, by ring, by omega⟩

theorem copySeq_eq_take_drop (seq : List Char) :
    ∀ (n q : Nat), q + n ≤ seq.length →
      copySeq seq q n = (seq.drop q).take n := by
  intro n
  induction n with
  | zero => intro q _; simp [copySeq]
  | succ m ih =>
    intro q hqn
    have hq : q < seq.length := by omega
    rw [copySeq, ih (q + 1) (by omega)]
    rw [List.drop_eq_getElem_cons hq, List.take_succ_cons]
    simp [List.getD_eq_getElem?_getD, List.getElem?_eq_getElem hq]

theorem copyQual_eq_take_drop (qual : List Nat) :
    ∀ (n q : Nat), q + n ≤ qual.length →
      copyQual qual q n = (qual.drop q).take n := by
  intro n
  induction n with
  | zero => intro q _; simp [copyQual]
  | succ m ih =>
    intro q hqn
    have hq : q < qual.length := by omega
    rw [copyQual, ih (q + 1) (by omega)]
    rw [List.drop_eq_getElem_cons hq, List.take_succ_cons]
    simp [List.getD_eq_getElem?_getD, List.getElem?_eq_getElem hq]

/-- C6 (amended): for a read whose overlapping-variant window is empty and
whose cigar consists only of match/equal/diff, alignment-insertion,
alignment-deletion and hard-clip operations (no soft clips, no invalid
kinds), the Read Mutation Engine reproduces the original sequence and
quality verbatim, and feeding them to the normal emission path yields
exactly the raw-bypass output: the empty-window bypass does not change the
output for such reads.  (With a soft clip the two paths genuinely differ,
see the counterexample, so the bypass is not a pure optimization.) -/
theorem spec_C6 (defFA mutprob : ℚ) (r : BamRec)
    (hops : ∀ p ∈ r.cigar, p.1 = BAM_CMATCH ∨ p.1 = BAM_CINS ∨
      p.1 = BAM_CDEL ∨ p.1 = BAM_CHARD_CLIP ∨ p.1 = BAM_CEQUAL ∨ p.1 = BAM_CDIFF)
    (hq : cigar2qlen r.cigar = r.seq.length)
    (hqu : r.qual.length = r.seq.length) :
    runEngine defFA mutprob r [] =
      some { initState r [] with
             newseq := r.seq, newqual := r.qual,
             qpos := cigar2qlen r.cigar,
             rpos := r.pos + ((cigar2rlen r.cigar : Nat) : Int),
             nSkipCmatches := cigar2mlen r.cigar }
    ∧ bamrec_write_fastq r r.seq r.qual = bamrec_write_fastq_raw r := by
  constructor
  · rw [runEngine, procOps_nilwin r.tid mutprob defFA r.seq r.qual r.cigar
      (initState r []) rfl hops]
    have hs : copySeq r.seq 0 (cigar2qlen r.cigar) = r.seq := by
      rw [copySeq_eq_take_drop r.seq (cigar2qlen r.cigar) 0 (by omega)]
      simp [hq]
    have hqq : copyQual r.qual 0 (cigar2qlen r.cigar) = r.qual := by
      rw [copyQual_eq_take_drop r.qual (cigar2qlen r.cigar) 0 (by omega)]
      simp [hq, hqu]
    simp [initState, hs, hqq]
  · rfl

/-- Witness for C6 (amended) on a 2-base all-match read. -/
theorem spec_C6_witness :
    runEngine 1 0 rC6w [] =
      some { stC6i with newseq := rC6w.seq, newqual := rC6w.qual,
                        qpos := cigar2qlen rC6w.cigar,
                        rpos := rC6w.pos + ((cigar2rlen rC6w.cigar : Nat) : Int),
                        nSkipCmatches := cigar2mlen rC6w.cigar }
    ∧ bamrec_write_fastq rC6w rC6w.seq rC6w.qual = bamrec_write_fastq_raw rC6w := by
  have h := spec_C6 1 0 rC6w (by decide) (by decide) (by decide)
  simpa [stC6i] using h

/-- Counterexample to C6 as stated: on a read with a soft-clip operation and
an empty window, running the engine and emitting yields C with quality 39,
while the raw bypass emits the full original AC with qualities 38,39 — the
bypass is not observationally equivalent to the engine path, because the
engine drops soft-clipped bases while the bypass emits the stored sequence
whole. -/
theorem spec_C6_cex :
    (runEngine 1 0 rC6 []).map
        (fun st => bamrec_write_fastq rC6 st.newseq st.newqual) =
      some { toR2 := false, name := ['q'], outseq := ['C'], outqual := [39] }
    ∧ bamrec_write_fastq_raw rC6 =
      { toR2 := false, name := ['q'], outseq := ['A','C'], outqual := [38, 39] } := by
  exact ⟨by rfl, by rfl⟩
